import Mathlib

/-!
Verification of the trip-allowance reconciliation pipeline (repository
`trip_pdf`) against its natural-language specification.

The development shallowly embeds the repository's Python source:

* `core/rules.py` — per-trip tier amounts (`calc_row_amount`) and the
  daily/monthly running-total cap passes (`compute_allowance_by_person`);
* `core/pdf_parser.py` — free-text duration parsing (`_parse_minutes`) and
  tolerant amount parsing (`_to_int_safe`);
* `core/pdf_analyzer.py` — the voucher-template writer
  (`fill_template_with_summary`), with the worksheet modelled as an
  association list of cells and `openpyxl.insert_rows` as a row shift;
* `pdf_analyzer.py` (repository root) — the legacy "fill an already
  populated template" writer;
* `core/__init__.py` — the names it imports, against the names each module
  actually defines, together with the indentation structure of the
  merge-conflict region of `core/pdf_analyzer.py`.

Machine integers are modelled as `Int` (Python's `int` is unbounded, so no
modular reduction is needed); Python strings as `String`/`List Char`;
fallible conversions as `Option`.
-/

/-! ## core/rules.py -/

/-- `_normalize_minutes`: clamp the (already integer) minutes value to `≥ 0`.
In the source the value first goes through `int(float(minutes))` with a
`try/except`; for an integer input that coercion is the identity, so the
embedding keeps only the `max(m, 0)` step. -/
def normalize_minutes (m : Int) : Int := max m 0

/-- `calc_row_amount(minutes, car_used)`: the per-trip base amount.
`0` below 60 minutes, `10000` in `[60, 240)`, `20000` from 240 minutes on;
government-vehicle use subtracts `10000` from a positive amount, and the
result is clamped at `0`.  (`_normalize_car_used` is the identity on inputs
that are already `bool`, which is what the pipeline supplies, so the flag is
modelled directly as `Bool`.) -/
def calc_row_amount (minutes : Int) (car_used : Bool) : Int :=
  let m := normalize_minutes minutes
  let amt : Int := if 60 ≤ m ∧ m < 240 then 10000 else if 240 ≤ m then 20000 else 0
  let amt := if car_used ∧ 0 < amt then amt - 10000 else amt
  if amt < 0 then 0 else amt

/-- The tier amount exactly as the specification words it ("0 if m < 60,
10000 if 60 ≤ m < 240, and 20000 if m ≥ 240"); used to compare
`calc_row_amount` with the spec's description. -/
def spec_tier_amount (m : Int) : Int :=
  if m < 60 then 0 else if m < 240 then 10000 else 20000

/-- One row of the DataFrame handed to `compute_allowance_by_person`
(columns `성명`, `시작일자`, `minutes`, `car_used`). -/
structure TripRow where
  name : String
  day : String
  minutes : Int
  car_used : Bool
deriving DecidableEq, Repr

/-- Step 1 of `compute_allowance_by_person`: the per-row base amount
`row_base`. -/
def row_base (r : TripRow) : Int := calc_row_amount r.minutes r.car_used

/-- One iteration of the running-total cap loop of
`compute_allowance_by_person` (used with `limit = 20000` for the daily pass
and `limit = 280000` for the monthly pass):

    if base <= 0 or cum >= limit: add = 0
    elif cum + base <= limit:     add = base
    else:                         add = limit - cum
-/
def capStep (limit cum base : Int) : Int :=
  if base ≤ 0 ∨ limit ≤ cum then 0
  else if cum + base ≤ limit then base
  else limit - cum

/-- The running-total cap loop over one group's bases, in the group's
natural order, starting from accumulator `cum`.  Returns the list of
allotted contributions (`add` values), aligned with the input. -/
def allotAux (limit : Int) : Int → List Int → List Int
  | _, [] => []
  | cum, b :: bs =>
      let add := capStep limit cum b
      add :: allotAux limit (cum + add) bs

/-- The snd projections of the entries of `l` whose key equals `k` — the
bases of one `groupby` group, in record order. -/
def groupVals {κ : Type} [DecidableEq κ] (k : κ) (l : List (κ × Int)) : List Int :=
  (l.filter (fun p => decide (p.1 = k))).map Prod.snd

/-- The per-row cap pass over the whole frame: each record's accumulator is
the sum of the contributions already allotted to earlier records with the
same key, exactly as the source's per-group loops (pandas `groupby`
preserves the original order inside each group, and the groups are
independent, so the per-group loops and this single keyed pass assign the
same value to every row).  `hist` holds the already-processed records
together with their allotted values. -/
def allotByKeyAux {κ : Type} [DecidableEq κ] (limit : Int) :
    List (κ × Int) → List (κ × Int) → List Int
  | _, [] => []
  | hist, (k, b) :: rest =>
      let add := capStep limit ((groupVals k hist).sum) b
      add :: allotByKeyAux limit (hist ++ [(k, add)]) rest

/-- The keyed cap pass started with an empty history. -/
def allotByKey {κ : Type} [DecidableEq κ] (limit : Int) (xs : List (κ × Int)) : List Int :=
  allotByKeyAux limit [] xs

/-- The `(성명, 시작일자)`-keyed bases fed to the daily pass (step 2). -/
def dailyInput (rows : List TripRow) : List ((String × String) × Int) :=
  rows.map (fun r => ((r.name, r.day), row_base r))

/-- `row_daily_limited`, aligned with `rows`: the daily pass with ceiling
20000 grouped by `(성명, 시작일자)`. -/
def row_daily_list (rows : List TripRow) : List Int :=
  allotByKey 20000 (dailyInput rows)

/-- The `성명`-keyed daily-capped contributions fed to the monthly pass
(step 3). -/
def monthlyInput (rows : List TripRow) : List (String × Int) :=
  (rows.map (fun r => r.name)).zip (row_daily_list rows)

/-- `row_final`, aligned with `rows`: the monthly pass with ceiling 280000
grouped by `성명` only. -/
def row_final_list (rows : List TripRow) : List Int :=
  allotByKey 280000 (monthlyInput rows)

/-- `compute_allowance_by_person` restricted to one employee:
`person_totals = df.groupby("성명")["row_final"].sum()` evaluated at
`name`. -/
def compute_allowance_by_person (rows : List TripRow) (name : String) : Int :=
  (groupVals name ((rows.map (fun r => r.name)).zip (row_final_list rows))).sum

/-- The daily-capped contributions of one employee, in record order: the
input list of that employee's monthly-pass group. -/
def dailiesFor (rows : List TripRow) (name : String) : List Int :=
  groupVals name (monthlyInput rows)

example : calc_row_amount 30 false = 0 := by decide
example : calc_row_amount 90 false = 10000 := by decide
example : calc_row_amount 300 true = 10000 := by decide
example : calc_row_amount 90 true = 0 := by decide
example : calc_row_amount (-5) true = 0 := by decide

example :
    row_daily_list [⟨"a", "d1", 90, false⟩, ⟨"a", "d1", 300, false⟩] = [10000, 10000] := by
  decide

example :
    compute_allowance_by_person
      [⟨"a", "d1", 90, false⟩, ⟨"a", "d1", 300, false⟩] "a" = 20000 := by
  decide

/-! ## core/pdf_parser.py -/

/-- The characters removed by Python's `str.strip()` (ASCII fragment; the
source only ever strips ASCII whitespace). -/
def isPyWhitespace (c : Char) : Bool :=
  c == ' ' || c == '\t' || c == '\n' || c == '\r' || c == '\x0b' || c == '\x0c'

/-- Python `str.strip()`. -/
def pyStrip (l : List Char) : List Char :=
  ((l.dropWhile isPyWhitespace).reverse.dropWhile isPyWhitespace).reverse

/-- `str.strip()` on a `String`. -/
def pyStripStr (s : String) : String := ⟨pyStrip s.data⟩

/-- Python `s.replace(" ", "")`: drop every space character. -/
def removeSpaces (l : List Char) : List Char := l.filter (fun c => !(c == ' '))

/-- Split a string into its maximal leading digit run and the rest. -/
def spanDigits : List Char → List Char × List Char
  | [] => ([], [])
  | c :: cs =>
      if c.isDigit then
        let p := spanDigits cs
        (c :: p.1, p.2)
      else ([], c :: cs)

theorem spanDigits_snd_length : ∀ l : List Char, (spanDigits l).2.length ≤ l.length
  | [] => Nat.le_refl _
  | c :: cs => by
      by_cases h : c.isDigit <;>
        simp [spanDigits, h, Nat.le_succ_of_le (spanDigits_snd_length cs)]

/-- Does `l` start with the token `tok`? -/
def startsWithChars : List Char → List Char → Bool
  | [], _ => true
  | _ :: _, [] => false
  | t :: ts, c :: cs => t == c && startsWithChars ts cs

/-- The numeric value of a digit string, accumulator style (Python
`int(digit_string)`). -/
def chListToNat : Nat → List Char → Nat
  | acc, [] => acc
  | acc, c :: cs => chListToNat (acc * 10 + (c.toNat - 48)) cs

/-- `re.search(r"(\d+)" + tok, s)`, returning the value of the captured
digit group.  Like the regex engine, this tries every start position from
the left; at a digit it takes the maximal digit run and requires `tok`
immediately after it.  Since the first character of every token used here
(`일`, `시`, `분`) is not a digit, the `\d+` group can never backtrack into a
successful shorter match, so this is exactly `re.search`'s leftmost
match. -/
def findNumToken (tok : List Char) : List Char → Option Nat
  | [] => none
  | c :: cs =>
      if c.isDigit then
        let p := spanDigits cs
        if startsWithChars tok p.2 then some (chListToNat 0 (c :: p.1))
        else findNumToken tok cs
      else findNumToken tok cs

/-- `_parse_minutes`: strip, delete spaces, then independently match the
day / hour / minute tokens anywhere in the text (each optional, default 0)
and combine as `days*24*60 + hours*60 + mins`. -/
def parse_minutes (text : String) : Nat :=
  let s := removeSpaces (pyStrip text.data)
  if s = [] then 0
  else
    let days := (findNumToken ['일'] s).getD 0
    let hours := (findNumToken ['시', '간'] s).getD 0
    let mins := (findNumToken ['분'] s).getD 0
    days * 24 * 60 + hours * 60 + mins

example : parse_minutes "1일 2시간 30분" = 1590 := by decide
example : parse_minutes "7시간21분" = 441 := by decide
example : parse_minutes "59분" = 59 := by decide
example : parse_minutes "" = 0 := by decide
example : parse_minutes "출장" = 0 := by decide

/-- The three duration units a `_parse_minutes` token can carry. -/
inductive DurUnit : Type
  | day
  | hour
  | minute
deriving DecidableEq, Repr

/-- The unit's Korean token text. -/
def unitToken : DurUnit → List Char
  | .day => ['일']
  | .hour => ['시', '간']
  | .minute => ['분']

/-- Minutes per unit. -/
def unitMinutes : DurUnit → Nat
  | .day => 1440
  | .hour => 60
  | .minute => 1

/-- The digit character for `d < 10`. -/
def digitChar (d : Nat) : Char := Char.ofNat (48 + d)

/-- Decimal digit rendering, fuel-recursive so that it reduces in the
kernel; `fuel ≥ n` always suffices since `n / 10 < n` for `n ≥ 10`. -/
def digitsOfFuel : Nat → Nat → List Char → List Char
  | 0, n, acc => digitChar n :: acc
  | fuel + 1, n, acc =>
      if n < 10 then digitChar n :: acc
      else digitsOfFuel fuel (n / 10) (digitChar (n % 10) :: acc)

/-- The canonical digits of `n` (no sign, no leading zeros beyond `"0"`). -/
def digitsOf (n : Nat) : List Char := digitsOfFuel n n []

/-- A rendered numeric duration token, e.g. `(2, hour) ↦ "2시간"`. -/
def renderTok (p : Nat × DurUnit) : List Char := digitsOf p.1 ++ unitToken p.2

/-- A duration text composed of numeric day/hour/minute tokens, in the
given order. -/
def renderToks (l : List (Nat × DurUnit)) : List Char := (l.map renderTok).flatten

example : renderToks [(1, .day), (2, .hour), (30, .minute)] = "1일2시간30분".data := by decide

/-- `int(float(s))` modelled in exact arithmetic: `num · 10^p`, truncated
toward zero (`Int.tdiv` is truncating division, matching Python `int()` on
a float).  IEEE-754 rounding is abstracted away: it only changes results
beyond 2^53, and no claim in scope depends on that regime. -/
def truncTenPow (num : Int) (p : Int) : Int :=
  if 0 ≤ p then num * 10 ^ p.toNat else num.tdiv (10 ^ (-p).toNat)

/-- An optional leading sign. -/
def parseSign : List Char → Int × List Char
  | '+' :: r => (1, r)
  | '-' :: r => (-1, r)
  | l => (1, l)

/-- `int(float(s))` for a text `s`, `none` when `float(s)` raises.  Covers
the float-literal grammar `[sign] digits [. digits] [e [sign] digits]`
surrounded by whitespace (the `inf`/`nan` forms contain no digit and are
unreachable from `_to_int_safe`, and digit-group underscores are not
modelled). -/
def pyFloatToInt (s0 : List Char) : Option Int :=
  let s := pyStrip s0
  let sg := parseSign s
  let ipr := spanDigits sg.2
  let fpr :=
    match ipr.2 with
    | '.' :: rest => spanDigits rest
    | _ => (([] : List Char), ipr.2)
  if ipr.1 = [] ∧ fpr.1 = [] then none
  else
    let mant : Int := sg.1 * (chListToNat 0 (ipr.1 ++ fpr.1) : Nat)
    let flen : Int := (fpr.1.length : Nat)
    match fpr.2 with
    | [] => some (truncTenPow mant (-flen))
    | e :: rest =>
        if e == 'e' || e == 'E' then
          let esg := parseSign rest
          let edr := spanDigits esg.2
          if edr.1 = [] ∨ edr.2 ≠ [] then none
          else some (truncTenPow mant (esg.1 * (chListToNat 0 edr.1 : Nat) - flen))
        else none

/-- `_to_int_safe`: remove thousands separators and spaces; `""`, `"-"` and
`"0원"` give 0; a digit-free text gives 0; otherwise `int(float(s))`, with
any conversion failure degrading to 0. -/
def to_int_safe (x : Option String) : Int :=
  match x with
  | none => 0
  | some t =>
      let s := t.data.filter (fun c => !(c == ',') && !(c == ' '))
      if s = [] ∨ s = ['-'] ∨ s = ['0', '원'] then 0
      else if !(s.any Char.isDigit) then 0
      else
        match pyFloatToInt s with
        | some n => n
        | none => 0

example : to_int_safe (some "10,000") = 10000 := by decide
example : to_int_safe (some "") = 0 := by decide
example : to_int_safe (some "-") = 0 := by decide
example : to_int_safe (some "0원") = 0 := by decide
example : to_int_safe (some "10000원") = 0 := by decide
example : to_int_safe (some "3.7") = 3 := by decide
example : to_int_safe (some "1e3") = 1000 := by decide
example : to_int_safe (some "-5") = -5 := by decide
example : to_int_safe none = 0 := by decide

/-! ## core/pdf_analyzer.py — the voucher-template writer

The worksheet is modelled as an association list from `(row, column)` to a
cell value; `getCell` returns the most recent write (first match), cell
assignment conses, and `openpyxl`'s `insert_rows(idx, amount)` shifts every
cell at a row `≥ idx` down by `amount`.  Fonts and other pure formatting
are outside the modelled state. -/

inductive CellVal : Type
  | blank
  | intVal (n : Int)
  | strVal (s : String)
  /-- The text `=SUM({col}{r1}:{col}{r2})` produced by the writer's
  f-string, with the column kept as its 1-based index. -/
  | sumFormula (col r1 r2 : Nat)
deriving DecidableEq, Repr

abbrev Sheet := List ((Nat × Nat) × CellVal)

def getCell (ws : Sheet) (rc : Nat × Nat) : Option CellVal :=
  (ws.find? (fun e => decide (e.1 = rc))).map (fun e => e.2)

def setCell (ws : Sheet) (rc : Nat × Nat) (v : CellVal) : Sheet :=
  (rc, v) :: ws

/-- `ws.insert_rows(idx, amount=k)`. -/
def insert_rows (ws : Sheet) (idx k : Nat) : Sheet :=
  ws.map (fun e => ((if idx ≤ e.1.1 then e.1.1 + k else e.1.1, e.1.2), e.2))

/-- One row of the `summary` frame handed to the writer (indexed by `성명`,
with columns `4시간미만`, `4시간이상`, `차량사용횟수`, `총지급액_숫자`,
`계산_총지급액`). -/
structure PersonSummary where
  name : String
  under4 : Int
  over4 : Int
  car_cnt : Int
  amount_pdf : Int
  amount_calc : Int
deriving DecidableEq, Repr

/-- Python/pandas string comparison: lexicographic by code point. -/
def charListLt : List Char → List Char → Bool
  | [], [] => false
  | [], _ :: _ => true
  | _ :: _, [] => false
  | a :: as, b :: bs =>
      if a.toNat < b.toNat then true
      else if b.toNat < a.toNat then false
      else charListLt as bs

def nameLt (p q : PersonSummary) : Bool := charListLt p.name.data q.name.data

/-- Stable insertion into a name-sorted list. -/
def insertSorted (p : PersonSummary) : List PersonSummary → List PersonSummary
  | [] => [p]
  | q :: qs => if nameLt q p then q :: insertSorted p qs else p :: q :: qs

/-- `summary.sort_index()`: stable ascending sort by name. -/
def sortByName : List PersonSummary → List PersonSummary
  | [] => []
  | p :: ps => insertSorted p (sortByName ps)

/-- The writer's data loop (`for idx, (name, row) in enumerate(people, 1)`):
sequence number in column A, name in column C, the three counts in D/E/F
(blank instead of 0), the reported amount in H (blank instead of 0), and —
only when reported ≠ recomputed — the recomputed amount in L.  A person
whose stripped name is empty is skipped without advancing the target row.
The merge-conflicted L-column block (lines 178–186 of the source) is
modelled by its `main`-side branch `if amount_pdf != amount_calc`.
Returns the worksheet and the final `current_row`. -/
def writePeople : Sheet → List PersonSummary → Nat → Nat → Sheet × Nat
  | ws, [], _, row => (ws, row)
  | ws, p :: ps, idx, row =>
      let name_str := pyStripStr p.name
      if name_str = "" then writePeople ws ps (idx + 1) row
      else
        let ws := setCell ws (row, 1) (.intVal idx)
        let ws := setCell ws (row, 3) (.strVal name_str)
        let ws := setCell ws (row, 4) (if p.under4 = 0 then .blank else .intVal p.under4)
        let ws := setCell ws (row, 5) (if p.over4 = 0 then .blank else .intVal p.over4)
        let ws := setCell ws (row, 6) (if p.car_cnt = 0 then .blank else .intVal p.car_cnt)
        let ws := setCell ws (row, 8) (if p.amount_pdf = 0 then .blank else .intVal p.amount_pdf)
        let ws := setCell ws (row, 12)
          (if p.amount_pdf ≠ p.amount_calc then .intVal p.amount_calc else .blank)
        writePeople ws ps (idx + 1) (row + 1)

/-- `fill_template_with_summary` of `core/pdf_analyzer.py`:
`HEADER_ROW = 4`, data from row 5, nominal capacity 21 rows, built-in
totals row `BASE_SUM_ROW = 26`; above 21 people, `n - 21` rows are inserted
at row 26 and the totals row moves down by the same amount; finally H of
the totals row receives `=SUM(H5:H{last_data_row})`. -/
def fill_template_with_summary (ws : Sheet) (summary : List PersonSummary) : Sheet :=
  let people := sortByName summary
  let n_people := people.length
  if n_people = 0 then ws
  else
    let extra := if 21 < n_people then n_people - 21 else 0
    let ws1 := if 21 < n_people then insert_rows ws 26 (n_people - 21) else ws
    let total_row := 26 + extra
    let wr := writePeople ws1 people 1 5
    let last_data_row := wr.2 - 1
    if 5 ≤ last_data_row then setCell wr.1 (total_row, 8) (.sumFormula 8 5 last_data_row)
    else wr.1

example :
    getCell (fill_template_with_summary [((26, 8), .strVal "합계칸")]
        [⟨"갑", 1, 0, 0, 10000, 10000⟩, ⟨"을", 0, 1, 0, 20000, 20000⟩]) (26, 8)
      = some (.sumFormula 8 5 6) := by decide

example : fill_template_with_summary [((26, 8), .strVal "합계칸")] [] = [((26, 8), .strVal "합계칸")] := by decide

/-! ## pdf_analyzer.py (repository root) — the legacy fill-existing writer -/

/-- One `summary` row of the legacy writer, keyed by exact index string. -/
structure LegacySummaryRow where
  under4 : Int
  over4 : Int
  car_cnt : Int
  amount_pdf : Int
  amount_calc : Int
deriving DecidableEq, Repr

/-- Python truthiness of a cell value (`if not name_val: ...`): missing
cells read as `None`, and `None`, `""` and `0` are falsy. -/
def cellFalsy : Option CellVal → Bool
  | none => true
  | some .blank => true
  | some (.strVal s) => s = ""
  | some (.intVal n) => n = 0
  | some (.sumFormula _ _ _) => false

/-- `str(cell_value)` for the cell shapes the model can hold (name cells in
scope are always strings; `str(None)` is unreachable behind the falsiness
check). -/
def cellToStr : Option CellVal → String
  | none => "None"
  | some .blank => ""
  | some (.strVal s) => s
  | some (.intVal n) => toString n
  | some (.sumFormula _ r1 r2) => "=SUM(H" ++ toString r1 ++ ":H" ++ toString r2 ++ ")"

/-- The body written into one pre-named template row by the legacy writer:
D/E/F counts (blank instead of 0), H reported amount (blank instead of 0),
L recomputed amount only when it differs from H. -/
def legacyWriteRow (ws : Sheet) (row : Nat) (d : LegacySummaryRow) : Sheet :=
  let ws := setCell ws (row, 4) (if d.under4 = 0 then .blank else .intVal d.under4)
  let ws := setCell ws (row, 5) (if d.over4 = 0 then .blank else .intVal d.over4)
  let ws := setCell ws (row, 6) (if d.car_cnt = 0 then .blank else .intVal d.car_cnt)
  let ws := setCell ws (row, 8) (if d.amount_pdf = 0 then .blank else .intVal d.amount_pdf)
  setCell ws (row, 12)
    (if d.amount_pdf ≠ d.amount_calc then .intVal d.amount_calc else .blank)

/-- The largest row index present in the sheet. -/
def maxRowSheet (ws : Sheet) : Nat := (ws.map (fun e => e.1.1)).foldr max 0

/-- The legacy writer's `while True` walk down column C from row 5:
stop at a falsy name cell or at a stripped name `"합계"`; otherwise look the
stripped name up in the summary index by exact string equality (a miss
fills the row with zero defaults) and write the row.  Returns the sheet and
`last_filled_row`.  `fuel` bounds the walk; the caller passes more fuel
than any populated row index, so the stop condition always fires first. -/
def legacyLoop (summary : List (String × LegacySummaryRow)) :
    Nat → Sheet → Nat → Nat → Sheet × Nat
  | 0, ws, _, last => (ws, last)
  | fuel + 1, ws, row, last =>
      let nameCell := getCell ws (row, 3)
      if cellFalsy nameCell || pyStripStr (cellToStr nameCell) == "합계" then (ws, last)
      else
        let name_str := pyStripStr (cellToStr nameCell)
        let d :=
          match summary.find? (fun p => decide (p.1 = name_str)) with
          | some p => p.2
          | none => ⟨0, 0, 0, 0, 0⟩
        legacyLoop summary fuel (legacyWriteRow ws row d) (row + 1) row

/-- `fill_template_with_summary` of the repository-root `pdf_analyzer.py`
(the fill-existing mode): optionally add the L-column header at row 4, walk
the pre-filled names from row 5, then put `합계`/`=SUM(H5:H{last})` one row
below the last filled row. -/
def legacy_fill_template_with_summary
    (ws0 : Sheet) (summary : List (String × LegacySummaryRow)) : Sheet :=
  let ws :=
    if cellFalsy (getCell ws0 (4, 12)) then setCell ws0 (4, 12) (.strVal "계산금액(규칙)")
    else ws0
  let r := legacyLoop summary (maxRowSheet ws0 + 2) ws 5 4
  if 5 ≤ r.2 then
    let total := r.2 + 1
    let ws3 :=
      if cellFalsy (getCell r.1 (total, 7)) then setCell r.1 (total, 7) (.strVal "합계")
      else r.1
    setCell ws3 (total, 8) (.sumFormula 8 5 r.2)
  else r.1

example :
    getCell (legacy_fill_template_with_summary [((5, 3), .strVal "김철수")]
        [("김철수", ⟨1, 0, 0, 10000, 10000⟩)]) (5, 8)
      = some (.intVal 10000) := by decide

example :
    getCell (legacy_fill_template_with_summary [((5, 3), .strVal "홍 길동")]
        [("홍길동", ⟨1, 0, 0, 10000, 10000⟩)]) (5, 8)
      = some .blank := by decide

/-! ## core/__init__.py and the merge-conflict region

`core/__init__.py` unconditionally runs

    from .pdf_parser import parse_trip_pdf
    from .pdf_analyzer import analyze_pdf
    from .rules import compute_amount_for_rows

so importing the package resolves those names in the listed modules.  The
lists below transcribe the `def` statements each module actually contains,
and the `(module, name)` pairs the package imports. -/

def core_init_imports : List (String × String) :=
  [("pdf_parser", "parse_trip_pdf"),
   ("pdf_analyzer", "analyze_pdf"),
   ("rules", "compute_amount_for_rows")]

def core_pdf_parser_defs : List String :=
  ["_find_col", "_parse_minutes", "_parse_period", "_extract_name",
   "_to_int_safe", "parse_pdf_to_rows"]

def core_pdf_analyzer_defs : List String :=
  ["summarize_pdf_by_person", "fill_template_with_summary", "analyze_pdf_and_template"]

def core_rules_defs : List String :=
  ["_normalize_minutes", "_normalize_car_used", "calc_row_amount",
   "compute_allowance_by_person"]

def coreModuleDefs (m : String) : List String :=
  if m = "pdf_parser" then core_pdf_parser_defs
  else if m = "pdf_analyzer" then core_pdf_analyzer_defs
  else if m = "rules" then core_rules_defs
  else []

/-- The logical statement lines of `core/pdf_analyzer.py` lines 173–193
(the merge-conflict region and its context), as
`(indentation, ends with a block-opening colon)`; comments and blank lines
do not count for Python's indentation rules. -/
def conflictRegionLines : List (Nat × Bool) :=
  [(8, false),   -- 172  cell_h = ws.cell(row=current_row, column=COL_PDF_AMT)
   (8, false),   -- 173  cell_h.value = "" if amount_pdf == 0 else amount_pdf
   (7, false),   -- 178  codex/fix-layout-alignment-issue-j8zv8a
   (8, false),   -- 180  diff = int(row.get("차이", amount_calc - amount_pdf) or 0)
   (8, false),   -- 181  cell_l = ws.cell(row=current_row, column=COL_CALC_AMT)
   (8, true),    -- 182  if diff != 0:
   (8, false),   -- 184  cell_l = ws.cell(row=current_row, column=COL_CALC_AMT)
   (8, true),    -- 185  if amount_pdf != amount_calc:
   (8, false),   -- 186  main
   (12, false),  -- 187  cell_l.value = amount_calc
   (12, false),  -- 188  cell_h.font = red_bold_font
   (12, false),  -- 189  cell_l.font = red_bold_font
   (8, true),    -- 190  else:
   (12, false),  -- 191  cell_l.value = ""
   (8, false)]   -- 193  current_row += 1

/-- Python requires the statement after a block-opening header to be
indented strictly deeper than the header. -/
def pyHeadersOk : List (Nat × Bool) → Bool
  | (i, true) :: (j, b) :: rest => decide (i < j) && pyHeadersOk ((j, b) :: rest)
  | _ :: rest => pyHeadersOk rest
  | [] => true

example : pyHeadersOk conflictRegionLines = false := by decide

/-! ## Lemmas about duration parsing -/

theorem digitChar_isDigit {d : Nat} (h : d < 10) : (digitChar d).isDigit = true := by
  interval_cases d <;> decide

theorem digitChar_toNat {d : Nat} (h : d < 10) : (digitChar d).toNat = 48 + d := by
  interval_cases d <;> decide

theorem chListToNat_nil (a : Nat) : chListToNat a [] = a := rfl

theorem chListToNat_cons (a : Nat) (c : Char) (cs : List Char) :
    chListToNat a (c :: cs) = chListToNat (a * 10 + (c.toNat - 48)) cs := rfl

theorem chListToNat_append : ∀ (l₁ l₂ : List Char) (a : Nat),
    chListToNat a (l₁ ++ l₂) = chListToNat (chListToNat a l₁) l₂
  | [], _, _ => rfl
  | c :: l₁, l₂, a => by
      rw [List.cons_append, chListToNat_cons, chListToNat_cons,
        chListToNat_append l₁ l₂]

theorem digitsOfFuel_acc : ∀ (fuel n : Nat) (acc : List Char),
    digitsOfFuel fuel n acc = digitsOfFuel fuel n [] ++ acc
  | 0, _, _ => rfl
  | fuel + 1, n, acc => by
      by_cases h : n < 10
      · simp [digitsOfFuel, h]
      · simp only [digitsOfFuel, h, if_false]
        rw [digitsOfFuel_acc fuel (n / 10) (digitChar (n % 10) :: acc),
          digitsOfFuel_acc fuel (n / 10) [digitChar (n % 10)]]
        simp

theorem digitsOfFuel_irrel : ∀ (f₁ f₂ n : Nat) (acc : List Char), n ≤ f₁ → n ≤ f₂ →
    digitsOfFuel f₁ n acc = digitsOfFuel f₂ n acc
  | 0, f₂, n, acc, h₁, _ => by
      have hn : n = 0 := by omega
      subst hn
      cases f₂ <;> simp [digitsOfFuel]
  | f₁ + 1, f₂, n, acc, h₁, h₂ => by
      by_cases h : n < 10
      · cases f₂ <;> simp [digitsOfFuel, h]
      · obtain ⟨f₂', rfl⟩ : ∃ m, f₂ = m + 1 := ⟨f₂ - 1, by omega⟩
        simp only [digitsOfFuel, h, if_false]
        exact digitsOfFuel_irrel f₁ f₂' (n / 10) _ (by omega) (by omega)

theorem digitsOf_small {n : Nat} (h : n < 10) : digitsOf n = [digitChar n] := by
  cases n <;> simp [digitsOf, digitsOfFuel, h]

theorem digitsOf_rec {n : Nat} (h : 10 ≤ n) :
    digitsOf n = digitsOf (n / 10) ++ [digitChar (n % 10)] := by
  obtain ⟨m, rfl⟩ : ∃ m, n = m + 1 := ⟨n - 1, by omega⟩
  show digitsOfFuel (m + 1) (m + 1) [] = _
  rw [show digitsOfFuel (m + 1) (m + 1) [] =
      digitsOfFuel m ((m + 1) / 10) [digitChar ((m + 1) % 10)] by
    simp [digitsOfFuel, show ¬m + 1 < 10 by omega]]
  rw [digitsOfFuel_acc]
  exact congrArg (· ++ _)
    (digitsOfFuel_irrel m ((m + 1) / 10) ((m + 1) / 10) [] (by omega) le_rfl)

theorem digitsOf_ne_nil (n : Nat) : digitsOf n ≠ [] := by
  by_cases h : n < 10
  · simp [digitsOf_small h]
  · rw [digitsOf_rec (by omega)]
    simp

theorem digitsOf_isDigit (n : Nat) : ∀ c ∈ digitsOf n, c.isDigit = true := by
  induction n using Nat.strong_induction_on with
  | _ n ih =>
    by_cases h : n < 10
    · simp [digitsOf_small h, digitChar_isDigit h]
    · rw [digitsOf_rec (by omega)]
      intro c hc
      rcases List.mem_append.mp hc with hc | hc
      · exact ih (n / 10) (by omega) c hc
      · simp only [List.mem_singleton] at hc
        subst hc
        exact digitChar_isDigit (by omega)

theorem chListToNat_digitsOf (n : Nat) :
    ∀ a : Nat, chListToNat a (digitsOf n) = a * 10 ^ (digitsOf n).length + n := by
  induction n using Nat.strong_induction_on with
  | _ n ih =>
    intro a
    by_cases h : n < 10
    · rw [digitsOf_small h]
      simp [chListToNat_cons, chListToNat_nil, digitChar_toNat h]
    · rw [digitsOf_rec (by omega), chListToNat_append, ih (n / 10) (by omega) a]
      simp only [chListToNat_cons, chListToNat_nil,
        digitChar_toNat (show n % 10 < 10 by omega),
        List.length_append, List.length_cons, List.length_nil, zero_add, pow_succ]
      have hdm := Nat.div_add_mod n 10
      ring_nf
      omega

theorem chListToNat_digitsOf_zero (n : Nat) : chListToNat 0 (digitsOf n) = n := by
  simpa using chListToNat_digitsOf n 0

theorem spanDigits_append_digits : ∀ (ds rest : List Char),
    (∀ c ∈ ds, c.isDigit = true) →
    (∀ c, rest.head? = some c → c.isDigit = false) →
    spanDigits (ds ++ rest) = (ds, rest)
  | [], rest, _, hrest => by
      cases rest with
      | nil => rfl
      | cons c cs => simp [spanDigits, hrest c rfl]
  | d :: ds, rest, hds, hrest => by
      have hd : d.isDigit = true := hds d (by simp)
      simp [spanDigits, hd,
        spanDigits_append_digits ds rest (fun c hc => hds c (by simp [hc])) hrest]

theorem startsWithChars_append_self : ∀ (l r : List Char), startsWithChars l (l ++ r) = true
  | [], _ => rfl
  | c :: l, r => by simp [startsWithChars, startsWithChars_append_self l r]

theorem startsWithChars_unitToken_ne {t u : DurUnit} (h : u ≠ t) (rest : List Char) :
    startsWithChars (unitToken t) (unitToken u ++ rest) = false := by
  cases t <;> cases u <;> first
    | exact absurd rfl h
    | rfl

theorem unitToken_head_not_digit (u : DurUnit) (rest : List Char) :
    ∀ c, (unitToken u ++ rest).head? = some c → c.isDigit = false := by
  cases u <;> intro c hc <;> simp only [unitToken, List.cons_append, List.head?_cons,
    Option.some.injEq] at hc <;> subst hc <;> decide

theorem findNumToken_unitToken_skip (tok : List Char) (u : DurUnit) (rest : List Char) :
    findNumToken tok (unitToken u ++ rest) = findNumToken tok rest := by
  cases u <;> rfl

theorem findNumToken_cons (tok : List Char) (c : Char) (cs : List Char) :
    findNumToken tok (c :: cs)
      = if c.isDigit then
          (if startsWithChars tok (spanDigits cs).2
            then some (chListToNat 0 (c :: (spanDigits cs).1))
            else findNumToken tok cs)
        else findNumToken tok cs := rfl

theorem findNumToken_digits_skip (tok : List Char) (u : DurUnit) (rest : List Char)
    (hsw : startsWithChars tok (unitToken u ++ rest) = false) :
    ∀ ds : List Char, (∀ c ∈ ds, c.isDigit = true) →
      findNumToken tok (ds ++ (unitToken u ++ rest)) = findNumToken tok rest
  | [], _ => by
      rw [List.nil_append, findNumToken_unitToken_skip]
  | d :: ds, hds => by
      have hd : d.isDigit = true := hds d (by simp)
      have hspan := spanDigits_append_digits ds (unitToken u ++ rest)
        (fun c hc => hds c (by simp [hc])) (unitToken_head_not_digit u rest)
      rw [List.cons_append, findNumToken_cons, if_pos hd]
      simp only [hspan, hsw, Bool.false_eq_true, if_false]
      exact findNumToken_digits_skip tok u rest hsw ds fun c hc => hds c (by simp [hc])

/-- A numeric token block at the head: the search either reads off the
block's number (matching unit) or moves on past the block (other unit). -/
theorem findNumToken_block (t u : DurUnit) (n : Nat) (rest : List Char) :
    findNumToken (unitToken t) (digitsOf n ++ (unitToken u ++ rest))
      = if u = t then some n else findNumToken (unitToken t) rest := by
  obtain ⟨d, ds, hds⟩ : ∃ d ds, digitsOf n = d :: ds := by
    cases hh : digitsOf n with
    | nil => exact absurd hh (digitsOf_ne_nil n)
    | cons d ds => exact ⟨d, ds, rfl⟩
  have hall : ∀ c ∈ d :: ds, c.isDigit = true := by
    rw [← hds]; exact digitsOf_isDigit n
  have hd : d.isDigit = true := hall d (by simp)
  have hspan := spanDigits_append_digits ds (unitToken u ++ rest)
    (fun c hc => hall c (by simp [hc])) (unitToken_head_not_digit u rest)
  rw [hds, List.cons_append, findNumToken_cons, if_pos hd]
  simp only [hspan]
  by_cases hu : u = t
  · subst hu
    rw [startsWithChars_append_self]
    simp only [if_pos rfl, if_true]
    rw [← hds, chListToNat_digitsOf_zero]
  · rw [startsWithChars_unitToken_ne hu]
    simp only [Bool.false_eq_true, if_false, if_neg hu]
    exact findNumToken_digits_skip (unitToken t) u rest
      (startsWithChars_unitToken_ne hu rest) ds fun c hc => hall c (by simp [hc])

theorem findNumToken_renderToks (t : DurUnit) :
    ∀ l : List (Nat × DurUnit),
      findNumToken (unitToken t) (renderToks l)
        = (l.find? fun p => decide (p.2 = t)).map Prod.fst
  | [] => rfl
  | (n, u) :: l => by
      have hrec := findNumToken_renderToks t l
      have hr : renderToks ((n, u) :: l) = digitsOf n ++ (unitToken u ++ renderToks l) := by
        simp [renderToks, renderTok, List.append_assoc]
      rw [hr, findNumToken_block t u n (renderToks l)]
      by_cases hu : u = t
      · rw [if_pos hu, List.find?_cons_of_pos _ (by simp [hu])]
        rfl
      · rw [if_neg hu, List.find?_cons_of_neg _ (by simp [hu]), hrec]

/-- The value captured for unit `t` from token list `l` (0 when absent). -/
def unitVal (l : List (Nat × DurUnit)) (t : DurUnit) : Nat :=
  ((l.find? fun p => decide (p.2 = t)).map Prod.fst).getD 0

theorem unitVal_cons (n : Nat) (u t : DurUnit) (l : List (Nat × DurUnit)) :
    unitVal ((n, u) :: l) t = if u = t then n else unitVal l t := by
  by_cases h : u = t
  · rw [unitVal, List.find?_cons_of_pos _ (by simp [h]), if_pos h]
    rfl
  · rw [unitVal, List.find?_cons_of_neg _ (by simp [h]), if_neg h]
    rfl

theorem find?_unit_eq_none {u : DurUnit} {l : List (Nat × DurUnit)}
    (hu : u ∉ l.map Prod.snd) : (l.find? fun p => decide (p.2 = u)) = none := by
  rw [List.find?_eq_none]
  intro p hp
  simp only [decide_eq_true_eq]
  rintro rfl
  exact hu (List.mem_map.mpr ⟨p, hp, rfl⟩)

theorem unitVal_absent {u : DurUnit} {l : List (Nat × DurUnit)}
    (hu : u ∉ l.map Prod.snd) : unitVal l u = 0 := by
  rw [unitVal, find?_unit_eq_none hu]
  rfl

/-- With each unit present at most once, the parsed combination
`days·1440 + hours·60 + mins` is the weighted token sum. -/
theorem render_sum_eq : ∀ l : List (Nat × DurUnit), (l.map Prod.snd).Nodup →
    (l.map fun p => p.1 * unitMinutes p.2).sum
      = unitVal l .day * 1440 + unitVal l .hour * 60 + unitVal l .minute
  | [], _ => by simp [unitVal]
  | (n, u) :: l, hnd => by
      rw [List.map_cons, List.nodup_cons] at hnd
      have ih := render_sum_eq l hnd.2
      have h0 := unitVal_absent hnd.1
      rw [List.map_cons, List.sum_cons, ih, unitVal_cons, unitVal_cons, unitVal_cons]
      cases u <;> simp [unitMinutes, h0] <;> ring

theorem not_ws_of_isDigit {c : Char} (h : c.isDigit = true) : isPyWhitespace c = false := by
  by_contra hw
  rw [Bool.not_eq_false] at hw
  simp only [isPyWhitespace, Bool.or_eq_true, beq_iff_eq] at hw
  rcases hw with ((((rfl | rfl) | rfl) | rfl) | rfl) | rfl <;> exact absurd h (by decide)

theorem not_space_of_not_ws {c : Char} (h : isPyWhitespace c = false) : (c == ' ') = false := by
  by_contra hs
  rw [Bool.not_eq_false, beq_iff_eq] at hs
  subst hs
  exact absurd h (by decide)

theorem unitToken_not_ws (u : DurUnit) : ∀ c ∈ unitToken u, isPyWhitespace c = false := by
  cases u
  · intro c hc; simp only [unitToken, List.mem_singleton] at hc; subst hc; decide
  · intro c hc
    simp only [unitToken, List.mem_cons, List.mem_singleton, List.not_mem_nil, or_false] at hc
    rcases hc with rfl | rfl <;> decide
  · intro c hc; simp only [unitToken, List.mem_singleton] at hc; subst hc; decide

theorem renderToks_no_ws (l : List (Nat × DurUnit)) :
    ∀ c ∈ renderToks l, isPyWhitespace c = false := by
  intro c hc
  simp only [renderToks, List.mem_flatten, List.mem_map] at hc
  obtain ⟨chunk, ⟨p, hp, rfl⟩, hcchunk⟩ := hc
  rcases List.mem_append.mp hcchunk with hcd | hct
  · exact not_ws_of_isDigit (digitsOf_isDigit p.1 c hcd)
  · exact unitToken_not_ws p.2 c hct

theorem dropWhile_eq_self_of_none {p : Char → Bool} :
    ∀ {l : List Char}, (∀ c ∈ l, p c = false) → l.dropWhile p = l
  | [], _ => rfl
  | c :: l, h => by simp [List.dropWhile_cons, h c (by simp)]

theorem pyStrip_eq_self {l : List Char} (h : ∀ c ∈ l, isPyWhitespace c = false) :
    pyStrip l = l := by
  unfold pyStrip
  rw [dropWhile_eq_self_of_none h,
    dropWhile_eq_self_of_none fun c hc => h c (List.mem_reverse.mp hc),
    List.reverse_reverse]

theorem removeSpaces_eq_self {l : List Char} (h : ∀ c ∈ l, (c == ' ') = false) :
    removeSpaces l = l :=
  List.filter_eq_self.mpr fun a ha => by rw [h a ha]; rfl

theorem renderToks_ne_nil (p : Nat × DurUnit) (l : List (Nat × DurUnit)) :
    renderToks (p :: l) ≠ [] := by
  obtain ⟨n, u⟩ := p
  simp [renderToks, renderTok, List.append_eq_nil, digitsOf_ne_nil n]

/-- Rendered token texts parse to the weighted sum of their tokens. -/
theorem parse_minutes_renderToks (l : List (Nat × DurUnit))
    (hnd : (l.map Prod.snd).Nodup) :
    parse_minutes ⟨renderToks l⟩ = (l.map fun p => p.1 * unitMinutes p.2).sum := by
  have hws := renderToks_no_ws l
  have hclean : removeSpaces (pyStrip (renderToks l)) = renderToks l := by
    rw [pyStrip_eq_self hws, removeSpaces_eq_self fun c hc => not_space_of_not_ws (hws c hc)]
  simp only [parse_minutes]
  rw [hclean]
  by_cases hl : renderToks l = []
  · have hnil : l = [] := by
      cases l with
      | nil => rfl
      | cons p l => exact absurd hl (renderToks_ne_nil p l)
    subst hnil
    decide
  · rw [if_neg hl]
    rw [show (['일'] : List Char) = unitToken DurUnit.day from rfl,
      show (['시', '간'] : List Char) = unitToken DurUnit.hour from rfl,
      show (['분'] : List Char) = unitToken DurUnit.minute from rfl,
      findNumToken_renderToks, findNumToken_renderToks, findNumToken_renderToks,
      render_sum_eq l hnd]
    simp only [unitVal]
    ring

theorem capStep_eq_min_max (limit cum b : Int) :
    capStep limit cum b = max (min b (limit - cum)) 0 := by
  unfold capStep
  split_ifs <;> omega

theorem capStep_nonneg (limit cum b : Int) : 0 ≤ capStep limit cum b := by
  unfold capStep
  split_ifs <;> omega

theorem capStep_le (limit cum : Int) {b : Int} (hb : 0 ≤ b) : capStep limit cum b ≤ b := by
  unfold capStep
  split_ifs <;> omega

theorem row_base_nonneg (r : TripRow) : 0 ≤ row_base r := by
  simp only [row_base, calc_row_amount]
  split_ifs <;> omega

/-- The allotted contributions of one group sum to the capped total:
`min(Σ bases, limit − cum)` floored at 0. -/
theorem allotAux_sum (limit : Int) :
    ∀ (l : List Int) (cum : Int), (∀ b ∈ l, 0 ≤ b) → 0 ≤ cum →
      (allotAux limit cum l).sum = min l.sum (max (limit - cum) 0)
  | [], cum, _, _ => by
      simp only [allotAux, List.sum_nil]
      omega
  | b :: bs, cum, h, hc => by
      have hb : 0 ≤ b := h b (by simp)
      have hs : 0 ≤ bs.sum := List.sum_nonneg fun x hx => h x (by simp [hx])
      have hcap := capStep_eq_min_max limit cum b
      have hrec := allotAux_sum limit bs (cum + capStep limit cum b)
        (fun x hx => h x (by simp [hx]))
        (by have := capStep_nonneg limit cum b; omega)
      simp only [allotAux, List.sum_cons, hrec]
      omega

/-- When the group's bases already fit under the ceiling, the cap loop
passes every base through unchanged. -/
theorem allotAux_eq_self (limit : Int) :
    ∀ (l : List Int) (cum : Int), (∀ b ∈ l, 0 ≤ b) → 0 ≤ cum → cum + l.sum ≤ limit →
      allotAux limit cum l = l
  | [], _, _, _, _ => rfl
  | b :: bs, cum, h, hc, hle => by
      have hb : 0 ≤ b := h b (by simp)
      have hs : 0 ≤ bs.sum := List.sum_nonneg fun x hx => h x (by simp [hx])
      have hsum : cum + (b + bs.sum) ≤ limit := by simpa using hle
      have hcap : capStep limit cum b = b := by
        have := capStep_eq_min_max limit cum b
        omega
      simp only [allotAux, hcap]
      rw [allotAux_eq_self limit bs (cum + b) (fun x hx => h x (by simp [hx]))
        (by omega) (by omega)]

theorem groupVals_nil {κ : Type} [DecidableEq κ] (k : κ) :
    groupVals k ([] : List (κ × Int)) = [] := rfl

theorem groupVals_append {κ : Type} [DecidableEq κ] (k : κ) (l₁ l₂ : List (κ × Int)) :
    groupVals k (l₁ ++ l₂) = groupVals k l₁ ++ groupVals k l₂ := by
  simp [groupVals, List.filter_append]

theorem groupVals_nonneg {κ : Type} [DecidableEq κ] (k : κ) {l : List (κ × Int)}
    (h : ∀ p ∈ l, 0 ≤ p.2) : ∀ v ∈ groupVals k l, 0 ≤ v := by
  intro v hv
  simp only [groupVals, List.mem_map, List.mem_filter] at hv
  obtain ⟨p, ⟨hp, _⟩, rfl⟩ := hv
  exact h p hp

/-- Restricted to one key, the keyed whole-frame pass is exactly the
per-group running-total loop on that group's bases: the source's
`groupby`-loops and the keyed pass agree group by group. -/
theorem allotByKeyAux_group {κ : Type} [DecidableEq κ] (limit : Int) (k : κ) :
    ∀ (xs hist : List (κ × Int)),
      groupVals k ((xs.map Prod.fst).zip (allotByKeyAux limit hist xs))
        = allotAux limit (groupVals k hist).sum (groupVals k xs)
  | [], hist => by simp [allotByKeyAux, groupVals, allotAux]
  | (k', b) :: xs, hist => by
      have hrec := allotByKeyAux_group limit k xs
        (hist ++ [(k', capStep limit (groupVals k' hist).sum b)])
      by_cases hk : k' = k
      · subst hk
        simp only [allotByKeyAux, List.map_cons, List.zip_cons_cons, groupVals,
          List.filter_cons, decide_eq_true_eq, if_pos rfl, List.map_cons, allotAux] at hrec ⊢
        refine List.cons_eq_cons.mpr ⟨rfl, ?_⟩
        rw [hrec]
        simp [groupVals_append, groupVals, List.sum_append]
      · simp only [allotByKeyAux, List.map_cons, List.zip_cons_cons, groupVals,
          List.filter_cons, decide_eq_true_eq, if_neg hk] at hrec ⊢
        rw [hrec]
        simp [groupVals_append, groupVals, hk]

theorem allotByKeyAux_nonneg {κ : Type} [DecidableEq κ] (limit : Int) :
    ∀ (xs hist : List (κ × Int)) (v : Int), v ∈ allotByKeyAux limit hist xs → 0 ≤ v
  | (k, b) :: xs, hist, v, hv => by
      simp only [allotByKeyAux, List.mem_cons] at hv
      rcases hv with rfl | hv
      · exact capStep_nonneg _ _ _
      · exact allotByKeyAux_nonneg limit xs _ v hv

theorem allotByKeyAux_length {κ : Type} [DecidableEq κ] (limit : Int) :
    ∀ (xs hist : List (κ × Int)), (allotByKeyAux limit hist xs).length = xs.length
  | [], _ => rfl
  | (k, b) :: xs, hist => by
      simp [allotByKeyAux, allotByKeyAux_length limit xs]

/-- Every keyed-pass output is bounded by its own (non-negative) base. -/
theorem allotByKeyAux_bounds {κ : Type} [DecidableEq κ] (limit : Int) :
    ∀ (xs hist : List (κ × Int)), (∀ p ∈ xs, 0 ≤ p.2) →
      List.Forall₂ (fun o (p : κ × Int) => 0 ≤ o ∧ o ≤ p.2) (allotByKeyAux limit hist xs) xs
  | [], _, _ => List.Forall₂.nil
  | (k, b) :: xs, hist, h => by
      refine List.Forall₂.cons
        ⟨capStep_nonneg _ _ _, capStep_le _ _ (h (k, b) (by simp))⟩ ?_
      exact allotByKeyAux_bounds limit xs _ fun p hp => h p (by simp [hp])

theorem forall₂_getD {α β : Type} {R : α → β → Prop} {d : α} {e : β} :
    ∀ {xs : List α} {ys : List β}, List.Forall₂ R xs ys → R d e →
      ∀ i, R (xs.getD i d) (ys.getD i e)
  | _, _, List.Forall₂.nil, hde, _ => by simpa using hde
  | _, _, List.Forall₂.cons h _, _, 0 => by simpa using h
  | _, _, List.Forall₂.cons _ t, hde, (i + 1) => by
      simpa using forall₂_getD t hde i

/-- Summing one key's values is monotone in pointwise-dominated value
lists. -/
theorem groupVals_sum_le {κ : Type} [DecidableEq κ] (k : κ) :
    ∀ (ks : List κ) {xs ys : List Int}, List.Forall₂ (· ≤ ·) xs ys →
      (groupVals k (ks.zip xs)).sum ≤ (groupVals k (ks.zip ys)).sum
  | [], _, _, _ => by simp [groupVals]
  | _ :: _, _, _, List.Forall₂.nil => by simp [groupVals]
  | a :: ks, _, _, List.Forall₂.cons hxy h => by
      have hrec := groupVals_sum_le k ks h
      by_cases ha : a = k <;>
        simp only [List.zip_cons_cons, groupVals, List.filter_cons, decide_eq_true_eq,
          if_pos, if_neg, ha, List.map_cons, List.sum_cons] at hrec ⊢ <;>
        [exact add_le_add hxy hrec; exact hrec]

/-- One key's column of a `zip` of two row maps is the filtered row map. -/
theorem groupVals_zip_map {κ : Type} [DecidableEq κ] (k : κ) (f : TripRow → κ)
    (g : TripRow → Int) :
    ∀ rows : List TripRow,
      groupVals k ((rows.map f).zip (rows.map g))
        = (rows.filter (fun r => decide (f r = k))).map g
  | [] => rfl
  | r :: rows => by
      have hrec := groupVals_zip_map k f g rows
      simp only [groupVals] at hrec
      by_cases hr : f r = k <;>
        simp [groupVals, List.filter_cons, hr, hrec]

theorem dailyInput_snd_nonneg (rows : List TripRow) : ∀ p ∈ dailyInput rows, 0 ≤ p.2 := by
  intro p hp
  simp only [dailyInput, List.mem_map] at hp
  obtain ⟨r, _, rfl⟩ := hp
  exact row_base_nonneg r

theorem row_daily_list_length (rows : List TripRow) :
    (row_daily_list rows).length = rows.length := by
  simp [row_daily_list, allotByKey, allotByKeyAux_length, dailyInput]

theorem row_daily_list_nonneg (rows : List TripRow) :
    ∀ v ∈ row_daily_list rows, 0 ≤ v :=
  fun v hv => allotByKeyAux_nonneg 20000 (dailyInput rows) [] v hv

theorem monthlyInput_snd_nonneg (rows : List TripRow) : ∀ p ∈ monthlyInput rows, 0 ≤ p.2 := by
  intro p hp
  obtain ⟨a, b⟩ := p
  exact row_daily_list_nonneg rows b (List.of_mem_zip hp).2

theorem monthlyInput_map_fst (rows : List TripRow) :
    (monthlyInput rows).map Prod.fst = rows.map (fun r => r.name) :=
  List.map_fst_zip _ _ (by simp [row_daily_list_length])

theorem monthlyInput_map_snd (rows : List TripRow) :
    (monthlyInput rows).map Prod.snd = row_daily_list rows :=
  List.map_snd_zip _ _ (by simp [row_daily_list_length])

theorem dailiesFor_nonneg (rows : List TripRow) (name : String) :
    ∀ v ∈ dailiesFor rows name, 0 ≤ v :=
  groupVals_nonneg name (monthlyInput_snd_nonneg rows)

/-- The returned per-person total is the sum of the person's monthly-pass
outputs, which the bridge lemma identifies with the running-total loop over
the person's daily-capped contributions. -/
theorem compute_allowance_eq_allot (rows : List TripRow) (name : String) :
    compute_allowance_by_person rows name
      = (allotAux 280000 0 (dailiesFor rows name)).sum := by
  have hbridge := allotByKeyAux_group 280000 name (monthlyInput rows) []
  simp only [groupVals_nil, List.sum_nil] at hbridge
  simp only [compute_allowance_by_person, row_final_list, allotByKey, dailiesFor,
    ← monthlyInput_map_fst, hbridge]

/-! ## Lemmas about amount parsing -/

theorem pyStrip_subset {l : List Char} {c : Char} (hc : c ∈ pyStrip l) : c ∈ l := by
  unfold pyStrip at hc
  rw [List.mem_reverse] at hc
  have hc2 := (List.dropWhile_sublist (l := (l.dropWhile isPyWhitespace).reverse)
    (p := isPyWhitespace)).subset hc
  rw [List.mem_reverse] at hc2
  exact (List.dropWhile_sublist (p := isPyWhitespace)).subset hc2

theorem parseSign_fst_one {l : List Char} (h : '-' ∉ l) : (parseSign l).1 = 1 := by
  unfold parseSign
  split
  · rfl
  · simp at h
  · rfl

theorem truncTenPow_nonneg {num : Int} (h : 0 ≤ num) (p : Int) : 0 ≤ truncTenPow num p := by
  unfold truncTenPow
  split_ifs
  · exact mul_nonneg h (pow_nonneg (by norm_num) _)
  · exact Int.tdiv_nonneg h (pow_nonneg (by norm_num) _)

/-- A float text without a minus sign cannot convert to a negative
integer. -/
theorem pyFloatToInt_nonneg {l : List Char} (h : '-' ∉ l) :
    ∀ n : Int, pyFloatToInt l = some n → 0 ≤ n := by
  intro n hn
  have hsgn : (parseSign (pyStrip l)).1 = 1 :=
    parseSign_fst_one fun hc => h (pyStrip_subset hc)
  simp only [pyFloatToInt, hsgn, one_mul] at hn
  split at hn
  · exact absurd hn (by simp)
  · split at hn
    · rw [Option.some.injEq] at hn
      subst hn
      exact truncTenPow_nonneg (Int.natCast_nonneg _) _
    · split at hn
      · split at hn
        · exact absurd hn (by simp)
        · rw [Option.some.injEq] at hn
          subst hn
          exact truncTenPow_nonneg (Int.natCast_nonneg _) _
      · exact absurd hn (by simp)

/-! ## Claims C1, C2, C3, C10 -/

/-- C1: for every integer duration `m` and vehicle flag `v`,
`calc_row_amount(m, v)` equals the spec's tier amount (0 / 10000 / 20000 at
the boundaries 60 and 240) with 10000 subtracted, floored at 0, exactly
when `v` holds and the tier amount is positive; the result is never
negative and is monotonically non-decreasing in `m`; and the four quoted
examples hold. -/
theorem calc_row_amount_spec (m m₂ : Int) (v : Bool) (hm : m ≤ m₂) :
    calc_row_amount m v
        = (if v = true ∧ 0 < spec_tier_amount m then max (spec_tier_amount m - 10000) 0
           else spec_tier_amount m)
  ∧ 0 ≤ calc_row_amount m v
  ∧ calc_row_amount m v ≤ calc_row_amount m₂ v
  ∧ calc_row_amount 30 false = 0
  ∧ calc_row_amount 90 false = 10000
  ∧ calc_row_amount 300 true = 10000
  ∧ calc_row_amount 90 true = 0 := by
  refine ⟨?_, ?_, ?_, by decide, by decide, by decide, by decide⟩ <;>
    cases v <;>
    simp only [calc_row_amount, spec_tier_amount, normalize_minutes, Bool.false_eq_true,
      false_and, true_and, if_false] <;>
    split_ifs <;>
    omega

theorem calc_row_amount_spec_witness :
    0 ≤ calc_row_amount 90 true ∧ calc_row_amount 90 true ≤ calc_row_amount 300 true :=
  ⟨(calc_row_amount_spec 90 300 true (by decide)).2.1,
   (calc_row_amount_spec 90 300 true (by decide)).2.2.1⟩

/-- C2: for every row list and every `(name, start date)` key, the daily
pass allots that group's rows, in their original order, by the
running-total rule (whose step is `min(base, 20000 − running)` clamped at
0); the group's daily contributions sum to at most 20000; and when the
group's bases already sum to at most 20000 every contribution equals its
base. -/
theorem daily_cap_group_spec (rows : List TripRow) (k : String × String) :
    groupVals k (((dailyInput rows).map Prod.fst).zip (row_daily_list rows))
        = allotAux 20000 0 (groupVals k (dailyInput rows))
  ∧ (groupVals k (((dailyInput rows).map Prod.fst).zip (row_daily_list rows))).sum ≤ 20000
  ∧ ((groupVals k (dailyInput rows)).sum ≤ 20000 →
      groupVals k (((dailyInput rows).map Prod.fst).zip (row_daily_list rows))
        = groupVals k (dailyInput rows))
  ∧ (∀ cum b : Int, capStep 20000 cum b = max (min b (20000 - cum)) 0) := by
  have hg : ∀ v ∈ groupVals k (dailyInput rows), 0 ≤ v :=
    groupVals_nonneg k (dailyInput_snd_nonneg rows)
  have hbridge := allotByKeyAux_group 20000 k (dailyInput rows) []
  simp only [groupVals_nil, List.sum_nil] at hbridge
  have hbridge' : groupVals k (((dailyInput rows).map Prod.fst).zip (row_daily_list rows))
      = allotAux 20000 0 (groupVals k (dailyInput rows)) := by
    simpa [row_daily_list, allotByKey] using hbridge
  refine ⟨hbridge', ?_, ?_, fun cum b => capStep_eq_min_max _ _ _⟩
  · rw [hbridge', allotAux_sum 20000 _ 0 hg le_rfl]
    have := List.sum_nonneg hg
    omega
  · intro hle
    rw [hbridge']
    exact allotAux_eq_self 20000 _ 0 hg le_rfl (by omega)

theorem daily_cap_group_spec_witness :
    (groupVals ("a", "d") (dailyInput [⟨"a", "d", 90, false⟩, ⟨"a", "d", 120, false⟩])).sum
        ≤ 20000
  ∧ groupVals ("a", "d")
        (((dailyInput [⟨"a", "d", 90, false⟩, ⟨"a", "d", 120, false⟩]).map Prod.fst).zip
          (row_daily_list [⟨"a", "d", 90, false⟩, ⟨"a", "d", 120, false⟩]))
      = groupVals ("a", "d") (dailyInput [⟨"a", "d", 90, false⟩, ⟨"a", "d", 120, false⟩]) :=
  ⟨by decide,
   (daily_cap_group_spec [⟨"a", "d", 90, false⟩, ⟨"a", "d", 120, false⟩]
      ("a", "d")).2.2.1 (by decide)⟩

/-- C3: the returned mapping value for each employee is the sum of the
employee's monthly-pass outputs — the identical running-total algorithm
with ceiling 280000 applied, in record order, to the daily-capped
contributions grouped by name only — and it is at most 280000, equal to
the final capped value `min(Σ daily-capped, 280000)`. -/
theorem monthly_cap_spec (rows : List TripRow) (name : String) :
    compute_allowance_by_person rows name
        = (allotAux 280000 0 (dailiesFor rows name)).sum
  ∧ compute_allowance_by_person rows name ≤ 280000
  ∧ compute_allowance_by_person rows name = min (dailiesFor rows name).sum 280000 := by
  have h1 := compute_allowance_eq_allot rows name
  have h3 : compute_allowance_by_person rows name
      = min (dailiesFor rows name).sum 280000 := by
    rw [h1, allotAux_sum 280000 _ 0 (dailiesFor_nonneg rows name) le_rfl]
    have := List.sum_nonneg (dailiesFor_nonneg rows name)
    omega
  refine ⟨h1, ?_, h3⟩
  rw [h3]
  have := List.sum_nonneg (dailiesFor_nonneg rows name)
  omega

/-- C10: per record, `0 ≤ row_final ≤ row_daily_limited ≤ row_base`, and
each employee's recomputed total lies between 0 and the sum of the
employee's per-trip bases. -/
theorem cap_chain_spec (rows : List TripRow) (i : Nat) (name : String) :
    0 ≤ (row_final_list rows).getD i 0
  ∧ (row_final_list rows).getD i 0 ≤ (row_daily_list rows).getD i 0
  ∧ (row_daily_list rows).getD i 0 ≤ (rows.map row_base).getD i 0
  ∧ 0 ≤ compute_allowance_by_person rows name
  ∧ compute_allowance_by_person rows name
      ≤ ((rows.filter (fun r => decide (r.name = name))).map row_base).sum := by
  have hF2d : List.Forall₂ (fun o b => 0 ≤ o ∧ o ≤ b)
      (row_daily_list rows) (rows.map row_base) := by
    have h := allotByKeyAux_bounds 20000 (dailyInput rows) [] (dailyInput_snd_nonneg rows)
    rw [show dailyInput rows = rows.map (fun r => ((r.name, r.day), row_base r)) from rfl,
      List.forall₂_map_right_iff] at h
    exact List.forall₂_map_right_iff.mpr h
  have hF2m : List.Forall₂ (fun o b => 0 ≤ o ∧ o ≤ b)
      (row_final_list rows) (row_daily_list rows) := by
    have h := allotByKeyAux_bounds 280000 (monthlyInput rows) []
      (monthlyInput_snd_nonneg rows)
    rw [← monthlyInput_map_snd rows]
    exact List.forall₂_map_right_iff.mpr h
  have hd0 : (0 : Int) ≤ 0 ∧ (0 : Int) ≤ 0 := ⟨le_rfl, le_rfl⟩
  have hgm := forall₂_getD hF2m hd0 i
  have hgd := forall₂_getD hF2d hd0 i
  have hnn : 0 ≤ compute_allowance_by_person rows name := by
    refine List.sum_nonneg (groupVals_nonneg name ?_)
    intro p hp
    obtain ⟨a, b⟩ := p
    exact allotByKeyAux_nonneg 280000 (monthlyInput rows) [] b (List.of_mem_zip hp).2
  refine ⟨hgm.1, hgm.2, hgd.2, hnn, ?_⟩
  have hstep1 : compute_allowance_by_person rows name
      ≤ (groupVals name ((rows.map (fun r => r.name)).zip (row_daily_list rows))).sum :=
    groupVals_sum_le name _ (hF2m.imp fun _ _ h => h.2)
  have hstep2 : (groupVals name ((rows.map (fun r => r.name)).zip (row_daily_list rows))).sum
      ≤ (groupVals name ((rows.map (fun r => r.name)).zip (rows.map row_base))).sum :=
    groupVals_sum_le name _ (hF2d.imp fun _ _ h => h.2)
  calc compute_allowance_by_person rows name
      ≤ (groupVals name ((rows.map (fun r => r.name)).zip (row_daily_list rows))).sum :=
        hstep1
    _ ≤ (groupVals name ((rows.map (fun r => r.name)).zip (rows.map row_base))).sum :=
        hstep2
    _ = ((rows.filter (fun r => decide (r.name = name))).map row_base).sum :=
        groupVals_zip_map name _ row_base rows ▸ rfl

/-! ## Claims C5 and C7 -/

/-- C5: for every duration text composed of optional day/hour/minute
numeric tokens in any order (each unit at most once), `_parse_minutes`
returns `days·1440 + hours·60 + minutes`, an absent token contributing 0;
and `"1일 2시간 30분" → 1590`, `"7시간21분" → 441`, `"" → 0`. -/
theorem parse_minutes_token_spec :
    (∀ l : List (Nat × DurUnit), (l.map Prod.snd).Nodup →
        parse_minutes ⟨renderToks l⟩ = (l.map fun p => p.1 * unitMinutes p.2).sum)
  ∧ parse_minutes "1일 2시간 30분" = 1590
  ∧ parse_minutes "7시간21분" = 441
  ∧ parse_minutes "" = 0 :=
  ⟨parse_minutes_renderToks, by decide, by decide, by decide⟩

theorem parse_minutes_token_spec_witness :
    parse_minutes ⟨renderToks [(3, DurUnit.minute), (2, DurUnit.day)]⟩ = 2883 := by
  rw [parse_minutes_token_spec.1 [(3, DurUnit.minute), (2, DurUnit.day)] (by decide)]
  decide

/-- C7 counterexample: `_to_int_safe("-5")` returns `-5`, a negative
integer, so the function does not return a non-negative integer on every
input string. -/
theorem to_int_safe_negative_input : to_int_safe (some "-5") = -5 ∧ to_int_safe (some "-5") < 0 := by
  decide

/-- C7 (amended): `_to_int_safe` is total (every failure path degrades to
0, never aborting); `None`, the empty string, a lone dash, the
zero-currency sentinel `"0원"` and every digit-free text yield 0; a text
whose float conversion fails yields 0; and the result is non-negative for
every input containing no minus sign — but a convertible negative numeral
is returned as its (negative) integer value. -/
theorem to_int_safe_spec (s : String) :
    to_int_safe none = 0
  ∧ to_int_safe (some "") = 0
  ∧ to_int_safe (some "-") = 0
  ∧ to_int_safe (some "0원") = 0
  ∧ (s.data.any Char.isDigit = false → to_int_safe (some s) = 0)
  ∧ (pyFloatToInt (s.data.filter fun c => !(c == ',') && !(c == ' ')) = none →
      to_int_safe (some s) = 0)
  ∧ ('-' ∉ s.data → 0 ≤ to_int_safe (some s)) := by
  refine ⟨rfl, by decide, by decide, by decide, ?_, ?_, ?_⟩
  · intro hnd
    simp only [to_int_safe]
    split_ifs with h1 h2
    · rfl
    · rfl
    · exfalso
      have hx : (s.data.filter fun c => !(c == ',') && !(c == ' ')).any Char.isDigit = true := by
        rcases Bool.eq_false_or_eq_true
            ((s.data.filter fun c => !(c == ',') && !(c == ' ')).any Char.isDigit) with ht | hf
        · exact ht
        · exact absurd (by rw [hf]; rfl) h2
      obtain ⟨c, hcf, hcd⟩ := List.any_eq_true.mp hx
      have : s.data.any Char.isDigit = true :=
        List.any_eq_true.mpr ⟨c, List.mem_of_mem_filter hcf, hcd⟩
      rw [hnd] at this
      exact Bool.false_ne_true this
  · intro hnone
    simp only [to_int_safe]
    split_ifs
    · rfl
    · rfl
    · rw [hnone]
  · intro hm
    simp only [to_int_safe]
    split_ifs
    · exact le_rfl
    · exact le_rfl
    · cases hfl : pyFloatToInt (s.data.filter fun c => !(c == ',') && !(c == ' ')) with
      | none => simp [hfl]
      | some n =>
          have hnm : '-' ∉ s.data.filter fun c => !(c == ',') && !(c == ' ') :=
            fun hc => hm (List.mem_of_mem_filter hc)
          simp only [hfl]
          exact pyFloatToInt_nonneg hnm n hfl

theorem to_int_safe_spec_witness :
    to_int_safe (some "abc원") = 0 ∧ 0 ≤ to_int_safe (some "7,200원") :=
  ⟨(to_int_safe_spec "abc원").2.2.2.2.1 (by decide),
   (to_int_safe_spec "7,200원").2.2.2.2.2.2 (by decide)⟩

/-! ## Lemmas about the voucher writer -/

theorem getCell_setCell (ws : Sheet) (rc rc' : Nat × Nat) (v : CellVal) :
    getCell (setCell ws rc v) rc' = if rc' = rc then some v else getCell ws rc' := by
  unfold getCell setCell
  by_cases h : rc' = rc
  · subst h
    rw [List.find?_cons_of_pos _ (by simp), if_pos rfl]
    rfl
  · rw [List.find?_cons_of_neg _ (by simp [Ne.symm h]), if_neg h]

theorem getCell_insert_rows (ws : Sheet) (k r c : Nat) (hr : 26 ≤ r) :
    getCell (insert_rows ws 26 k) (r + k, c) = getCell ws (r, c) := by
  unfold getCell insert_rows
  induction ws with
  | nil => rfl
  | cons e ws ih =>
      obtain ⟨⟨ρ, γ⟩, v⟩ := e
      rw [List.map_cons]
      have hiff : (((if 26 ≤ ρ then ρ + k else ρ, γ) : Nat × Nat) = (r + k, c))
          ↔ ((ρ, γ) : Nat × Nat) = (r, c) := by
        by_cases hρ : 26 ≤ ρ
        · rw [if_pos hρ]
          simp only [Prod.mk.injEq]
          constructor <;> rintro ⟨h1, h2⟩ <;> exact ⟨by omega, h2⟩
        · rw [if_neg hρ]
          simp only [Prod.mk.injEq]
          constructor <;> rintro ⟨h1, h2⟩ <;> exact ⟨by omega, h2⟩
      by_cases hq : ((ρ, γ) : Nat × Nat) = (r, c)
      · rw [List.find?_cons_of_pos _ (by simpa using hiff.mpr hq),
          List.find?_cons_of_pos _ (by simpa using hq)]
        rfl
      · rw [List.find?_cons_of_neg _ (by simpa using fun hh => hq (hiff.mp hh)),
          List.find?_cons_of_neg _ (by simpa using hq)]
        exact ih

theorem writePeople_row : ∀ (ps : List PersonSummary) (ws : Sheet) (idx row : Nat),
    (∀ p ∈ ps, pyStripStr p.name ≠ "") → (writePeople ws ps idx row).2 = row + ps.length
  | [], _, _, _, _ => rfl
  | p :: ps, ws, idx, row, h => by
      have hp := h p (by simp)
      simp only [writePeople, if_neg hp]
      rw [writePeople_row ps _ (idx + 1) (row + 1) fun q hq => h q (by simp [hq])]
      simp only [List.length_cons]
      omega

theorem writePeople_preserve : ∀ (ps : List PersonSummary) (ws : Sheet) (idx row r c : Nat),
    row + ps.length ≤ r → getCell (writePeople ws ps idx row).1 (r, c) = getCell ws (r, c)
  | [], _, _, _, _, _, _ => rfl
  | p :: ps, ws, idx, row, r, c, hr => by
      simp only [List.length_cons] at hr
      simp only [writePeople]
      by_cases hp : pyStripStr p.name = ""
      · rw [if_pos hp]
        exact writePeople_preserve ps ws (idx + 1) row r c (by omega)
      · rw [if_neg hp]
        rw [writePeople_preserve ps _ (idx + 1) (row + 1) r c (by omega)]
        have hrow : ¬r = row := by omega
        simp [getCell_setCell, Prod.ext_iff, hrow]

theorem insertSorted_length (p : PersonSummary) :
    ∀ l : List PersonSummary, (insertSorted p l).length = l.length + 1
  | [] => rfl
  | q :: qs => by
      by_cases h : nameLt q p <;> simp [insertSorted, h, insertSorted_length p qs]

theorem sortByName_length : ∀ l : List PersonSummary, (sortByName l).length = l.length
  | [] => rfl
  | p :: ps => by simp [sortByName, insertSorted_length, sortByName_length ps]

theorem mem_insertSorted {q p : PersonSummary} :
    ∀ {l : List PersonSummary}, q ∈ insertSorted p l → q = p ∨ q ∈ l
  | [], h => by
      simp only [insertSorted, List.mem_singleton] at h
      exact Or.inl h
  | r :: l, h => by
      simp only [insertSorted] at h
      by_cases hc : nameLt r p
      · rw [if_pos hc] at h
        rcases List.mem_cons.mp h with rfl | h2
        · exact Or.inr (by simp)
        · rcases mem_insertSorted h2 with h3 | h3
          · exact Or.inl h3
          · exact Or.inr (by simp [h3])
      · rw [if_neg hc] at h
        rcases List.mem_cons.mp h with rfl | h2
        · exact Or.inl rfl
        · exact Or.inr h2

theorem mem_sortByName {q : PersonSummary} :
    ∀ {l : List PersonSummary}, q ∈ sortByName l → q ∈ l
  | [], h => by simp [sortByName] at h
  | p :: ps, h => by
      rcases mem_insertSorted h with rfl | h2
      · simp
      · simp [mem_sortByName h2]

/-! ## Claims C4, C6, C9 -/

/-- C6: filling a template with an empty `PersonSummary` set returns the
template unchanged — no data rows written, no rows inserted, no totals
formula added. -/
theorem fill_template_empty (ws : Sheet) : fill_template_with_summary ws [] = ws := rfl

/-- C4: with `n > 21` people (all with non-blank names), the writer inserts
exactly `n − 21` rows at the nominal totals row 26 — every template cell at
a row `≥ 26` reappears `n − 21` rows lower, except the totals cell, which
is overwritten — and writes `=SUM(H5:H{4+n})` into the relocated totals
cell `(26 + (n − 21), 8)`, spanning the first through last written data
rows. -/
theorem fill_template_inserts (ws : Sheet) (people : List PersonSummary)
    (h21 : 21 < people.length) (hn : ∀ p ∈ people, pyStripStr p.name ≠ "") :
    getCell (fill_template_with_summary ws people) (26 + (people.length - 21), 8)
        = some (.sumFormula 8 5 (4 + people.length))
  ∧ ∀ r c, 26 ≤ r → ((r, c) : Nat × Nat) ≠ (26, 8) →
      getCell (fill_template_with_summary ws people) (r + (people.length - 21), c)
        = getCell ws (r, c) := by
  have hlen := sortByName_length people
  have hnames : ∀ p ∈ sortByName people, pyStripStr p.name ≠ "" :=
    fun p hp => hn p (mem_sortByName hp)
  simp only [fill_template_with_summary, hlen]
  have he : (if 21 < people.length then people.length - 21 else 0)
      = people.length - 21 := if_pos h21
  have hw1 : (if 21 < people.length then insert_rows ws 26 (people.length - 21) else ws)
      = insert_rows ws 26 (people.length - 21) := if_pos h21
  rw [if_neg (show ¬people.length = 0 by omega), he, hw1,
    writePeople_row (sortByName people) _ 1 5 hnames, hlen,
    if_pos (show 5 ≤ 5 + people.length - 1 by omega)]
  have hlast : 5 + people.length - 1 = 4 + people.length := by omega
  constructor
  · rw [getCell_setCell, if_pos rfl, hlast]
  · intro r c hr hne
    have hner : ((r + (people.length - 21), c) : Nat × Nat)
        ≠ (26 + (people.length - 21), 8) := by
      intro hh
      rw [Prod.mk.injEq] at hh
      refine hne ?_
      rw [Prod.mk.injEq]
      exact ⟨by omega, hh.2⟩
    rw [getCell_setCell, if_neg hner,
      writePeople_preserve (sortByName people) _ 1 5 (r + (people.length - 21)) c
        (by rw [hlen]; omega),
      getCell_insert_rows ws (people.length - 21) r c hr]

/-- C9: importing the `core` package fails before any processing — each
name pulled in by `core/__init__.py` is absent from the module it is
imported from, and the merge-conflict region of `core/pdf_analyzer.py`
violates Python's block-indentation rule (an `if` header followed by a
statement at the same indentation), so the module cannot even parse and
`analyze_pdf_and_template` is unreachable through the package. -/
theorem core_package_import_broken :
    (∀ p ∈ core_init_imports, p.2 ∉ coreModuleDefs p.1)
  ∧ pyHeadersOk conflictRegionLines = false := by
  exact ⟨by decide, by decide⟩

theorem core_package_import_broken_witness :
    ("pdf_parser", "parse_trip_pdf") ∈ core_init_imports
  ∧ "parse_trip_pdf" ∉ coreModuleDefs "pdf_parser" :=
  ⟨by decide, core_package_import_broken.1 ("pdf_parser", "parse_trip_pdf") (by decide)⟩

/-- A 25-employee roster, one qualifying trip each. -/
def roster25 : List PersonSummary :=
  ["a01", "a02", "a03", "a04", "a05", "a06", "a07", "a08", "a09", "a10",
   "a11", "a12", "a13", "a14", "a15", "a16", "a17", "a18", "a19", "a20",
   "a21", "a22", "a23", "a24", "a25"].map fun s => ⟨s, 0, 1, 0, 20000, 20000⟩

theorem fill_template_inserts_witness :
    getCell (fill_template_with_summary [((26, 8), .strVal "합계칸")] roster25) (30, 8)
      = some (.sumFormula 8 5 29) :=
  (fill_template_inserts [((26, 8), .strVal "합계칸")] roster25
    (by decide) (by decide)).1

/-! ## Claim C8 -/

/-- C8 counterexample: a summary entry whose name `"홍길동"` differs from the
template row's name `"홍 길동"` only by whitespace does not fill that row —
the reported-amount cell gets the zero default (blank), not the entry's
10000 — because the legacy writer matches only exactly. -/
theorem legacy_fill_no_ws_fallback :
    getCell (legacy_fill_template_with_summary [((5, 3), .strVal "홍 길동")]
        [("홍길동", ⟨1, 0, 0, 10000, 10000⟩)]) (5, 8) = some CellVal.blank
  ∧ removeSpaces "홍 길동".data = removeSpaces "홍길동".data := by
  decide

/-- C8 (amended): in the existing-roster-fill mode the writer looks the
template row's stripped name up in the summary index by exact string
equality only — the row receives the exactly-matched entry's reported
amount (blank when 0), and the zero defaults when no exact match exists;
there is no whitespace-insensitive fallback. -/
theorem legacy_fill_exact_match (t : String) (summary : List (String × LegacySummaryRow))
    (h1 : t ≠ "") (h2 : pyStripStr t ≠ "합계") :
    getCell (legacy_fill_template_with_summary [((5, 3), CellVal.strVal t)] summary) (5, 8)
      = some (match summary.find? (fun p => decide (p.1 = pyStripStr t)) with
          | some p =>
              if p.2.amount_pdf = 0 then CellVal.blank else CellVal.intVal p.2.amount_pdf
          | none => CellVal.blank) := by
  have hb1 : (decide (t = "")) = false := decide_eq_false h1
  have hb2 : (pyStripStr t == "합계") = false := beq_eq_false_iff_ne.mpr h2
  cases hfind : summary.find? fun p => decide (p.1 = pyStripStr t) with
  | none =>
      simp [legacy_fill_template_with_summary, legacyLoop, legacyWriteRow,
        maxRowSheet, getCell, setCell, cellFalsy, cellToStr, hb1, hb2, hfind,
        List.find?]
  | some q =>
      simp [legacy_fill_template_with_summary, legacyLoop, legacyWriteRow,
        maxRowSheet, getCell, setCell, cellFalsy, cellToStr, hb1, hb2, hfind,
        List.find?]

theorem legacy_fill_exact_match_witness :
    getCell (legacy_fill_template_with_summary [((5, 3), CellVal.strVal "김철수")]
        [("김철수", ⟨0, 0, 0, 5000, 5000⟩)]) (5, 8) = some (CellVal.intVal 5000) := by
  rw [legacy_fill_exact_match "김철수" [("김철수", ⟨0, 0, 0, 5000, 5000⟩)]
    (by decide) (by decide)]
  decide
